import Mathlib

/-!
Verification of the materialized-view consistency test harness (`src/main.rs`).

The development shallowly embeds the harness's core:
the per-worker value generation of `start_writes`, its retry loop and stop-flag
handling, the snapshot canonicalization of `read_all_rows_from_table`, and the
per-node comparison performed by `main`'s checker loop.

Machine arithmetic: the written value is computed as `id + i * concurrency` on
`i32` operands; we model it on `Nat` inputs with the two's-complement wrap at
`2 ^ 32` applied explicitly (`toSigned32`), matching Rust's release-profile
wrapping semantics for overflowing integer arithmetic.
-/

/-- A row of `view_test.tab` / `view_test.tab_view`: the three `int` (32-bit)
columns `(p, c, r)`, read back as `(i32, i32, i32)` tuples. -/
abbrev Row : Type := Int × Int × Int

/-- Two's-complement interpretation of the low 32 bits of a natural number.
This models the `i32` result of arithmetic on non-negative operands under
Rust's wrapping (release-profile) overflow semantics: the residue mod `2 ^ 32`
determines the bit pattern, and bit patterns at or above `2 ^ 31` denote
negative values. -/
def toSigned32 (n : Nat) : Int :=
  if n % 2 ^ 32 < 2 ^ 31 then ((n % 2 ^ 32 : Nat) : Int)
  else ((n % 2 ^ 32 : Nat) : Int) - 2 ^ 32

/-- The value worker `id` writes at its iteration `i` when `concurrency`
workers run: `let value = id + i * concurrency;` (src/main.rs line 136),
taken as an unbounded natural number. -/
def workerValue (concurrency id i : Nat) : Nat := id + i * concurrency

/-- The same value as the `i32` the program actually computes: the source
performs `id + i * concurrency` on `i32` operands, so the result wraps at 32
bits. -/
def workerValueI32 (concurrency id i : Nat) : Int :=
  toSigned32 (workerValue concurrency id i)

/-- All values produced over a bounded run in which each of the `concurrency`
workers (ids `0, …, concurrency-1`, src/main.rs line 106) performs exactly `K`
iterations of its write loop (`for i in 0..`, line 117). -/
def producedList (concurrency K : Nat) : List Int :=
  (List.range concurrency).flatMap fun id =>
    (List.range K).map fun i => workerValueI32 concurrency id i

/-- The bound values of one insert: `session.execute(&insert, (value, value,
value))` (src/main.rs line 140) binds the single `value` to all three columns
`p`, `c`, `r`. -/
def insertBoundValues (value : Int) : Row := (value, value, value)

/-- The row written by worker `id` at iteration `i`. -/
def workerRow (concurrency id i : Nat) : Row :=
  insertBoundValues (workerValueI32 concurrency id i)

/-- `let tries_num = 8;` (src/main.rs line 137): the total attempt budget of
one write. -/
def tries_num : Nat := 8

/-- The fixed backoff between failed attempts, in milliseconds:
`tokio::time::sleep(Duration::from_millis(64))` (src/main.rs line 145). -/
def backoffMs : Nat := 64

/-- Outcome of one write with retries, recording how many attempts were made.
`fatal` corresponds to `let _ = result.unwrap();` on an `Err` (src/main.rs
line 148): the failure is surfaced, not swallowed. -/
inductive WriteOutcome where
  | success (attempts : Nat)
  | fatal (attempts : Nat)
deriving DecidableEq, Repr

/-- The attempt count carried by a `WriteOutcome`. -/
def WriteOutcome.attempts : WriteOutcome → Nat
  | .success a => a
  | .fatal a => a

/-- The retry loop of one write (src/main.rs lines 138-151): `for try_number
in 1..` attempts the insert; `Ok` breaks out; `Err` with `try_number <
tries_num` sleeps 64 ms and retries; any later `Err` is unwrapped and fails
fatally. `attemptOk t` is the outcome of attempt number `t` (1-based);
`remaining` counts the retries still allowed, i.e. `tries_num - tryNumber`.
Returns the outcome together with the list of backoff delays slept, in
milliseconds. -/
def retryFrom (attemptOk : Nat → Bool) : Nat → Nat → WriteOutcome × List Nat
  | tryNumber, 0 =>
    if attemptOk tryNumber then (.success tryNumber, []) else (.fatal tryNumber, [])
  | tryNumber, remaining + 1 =>
    if attemptOk tryNumber then (.success tryNumber, [])
    else
      let rest := retryFrom attemptOk (tryNumber + 1) remaining
      (rest.1, backoffMs :: rest.2)

/-- One full write with retries, starting at `try_number = 1` with
`tries_num - 1` retries remaining. -/
def retryingWrite (attemptOk : Nat → Bool) : WriteOutcome × List Nat :=
  retryFrom attemptOk 1 (tries_num - 1)

theorem retryFrom_all_fail (attemptOk : Nat → Bool) (hfail : ∀ t, attemptOk t = false) :
    ∀ tryNumber remaining, retryFrom attemptOk tryNumber remaining =
      (.fatal (tryNumber + remaining), List.replicate remaining backoffMs) := by
  intro tryNumber remaining
  induction remaining generalizing tryNumber with
  | zero => simp [retryFrom, hfail]
  | succ r ih =>
    simp only [retryFrom, hfail, Bool.false_eq_true, if_false, ih (tryNumber + 1),
      List.replicate_succ]
    have h : tryNumber + 1 + r = tryNumber + (r + 1) := by omega
    rw [h]

/-- Control state of one worker fiber spawned by `start_writes` (src/main.rs
lines 112-153). `running i` means the fiber is about to run loop iteration
`i`; `stopped` means it returned after observing the stop flag (line 123);
`panicked` means it aborted via `result.unwrap()` on an exhausted retry budget
(line 148). -/
inductive WorkerState where
  | running (i : Nat)
  | panicked
  | stopped
deriving DecidableEq, Repr

/-- One loop iteration of a worker fiber (src/main.rs lines 117-151): after
the interval tick, the fiber reads the shared stop flag; if it is set the
fiber returns (terminal, nothing emitted). Otherwise it issues the insert for
the current iteration: if the retry budget is exhausted (`writeFatal`) the
fiber panics, otherwise it proceeds to the next iteration. The periodic
progress print of fiber 0 (lines 127-133) is purely observational and is not
modelled. The emitted component is the iteration whose insert was issued, if
any. -/
def workerStep (flag writeFatal : Bool) : WorkerState → WorkerState × Option Nat
  | .running i =>
    if flag then (.stopped, none)
    else if writeFatal then (.panicked, some i)
    else (.running (i + 1), some i)
  | .panicked => (.panicked, none)
  | .stopped => (.stopped, none)

/-- Run a worker fiber over a finite schedule of observations, one per tick:
each entry is the stop-flag value read at the start of that iteration paired
with whether the write would exhaust its retries. Collects the iterations at
which inserts are issued. -/
def runWorker : List (Bool × Bool) → WorkerState → WorkerState × List Nat
  | [], s => (s, [])
  | ob :: obs, s =>
    let step := workerStep ob.1 ob.2 s
    let rest := runWorker obs step.1
    (rest.1, step.2.toList ++ rest.2)

/-- `WritesStopper::stop` (src/main.rs lines 84-86) stores `true` into the
shared `AtomicBool`; whatever the flag held before, every read that observes
the store reads `true`. -/
def WritesStopper.stop (_previous : Bool) : Bool := true

/-- The whole process: the pool of worker fibers spawned by `start_writes`
plus the main task that runs the checker loop. -/
structure PoolState where
  fibers : List WorkerState
  mainAlive : Bool
deriving DecidableEq, Repr

/-- Effect on the process when fiber `j` exhausts its write retries:
`let _ = result.unwrap();` (src/main.rs line 148) panics inside the task
created by `tokio::spawn` (line 112). A panic in a spawned tokio task unwinds
and aborts that task only; it is captured in the task's `JoinHandle`, which
`start_writes` discards without storing or awaiting, so the main task and
every other fiber keep running. -/
def exhaustedRetryPanic (ps : PoolState) (j : Nat) : PoolState :=
  { fibers := ps.fibers.set j .panicked, mainAlive := ps.mainAlive }

/-- Lexicographic comparison of two rows: Rust's derived `Ord` on the tuple
`(i32, i32, i32)` compares `p`, then `c`, then `r`, as used by `rows.sort()`
(src/main.rs line 176). -/
def rowLe (a b : Row) : Bool :=
  decide (a.1 < b.1 ∨ (a.1 = b.1 ∧ (a.2.1 < b.2.1 ∨ (a.2.1 = b.2.1 ∧ a.2.2 ≤ b.2.2))))

/-- `read_all_rows_from_table` (src/main.rs lines 159-179): the paginated
scan yields rows in arrival order — the input list — which are collected into
a vector and then sorted by `rows.sort()`, a stable merge sort under the
derived lexicographic order on `(i32, i32, i32)`. -/
def read_all_rows_from_table (scanned : List Row) : List Row :=
  scanned.mergeSort rowLe

/-- The message printed for one node by the checker loop (src/main.rs lines
236-247): a pass names the node; a failure names the node and reports
`base_rows.len()` and `view_rows.len()`. -/
inductive CheckReport where
  | viewMatches (nodeId : Nat)
  | viewMismatch (nodeId : Nat) (baseLen viewLen : Nat)
deriving DecidableEq, Repr

/-- The comparison performed for node `nodeId` (src/main.rs lines 236-247):
pass iff `view_rows == base_rows` — `Vec` equality, i.e. equality of ordered
sequences — and otherwise a failure report carrying both snapshot lengths. -/
def checkNode (nodeId : Nat) (baseRows viewRows : List Row) : CheckReport :=
  if viewRows = baseRows then .viewMatches nodeId
  else .viewMismatch nodeId baseRows.length viewRows.length

/-- The data the two scans of one verification pass would return: the base
table rows and, per node, that node's view rows, each in physical arrival
order. -/
structure DbState where
  tabScan : List Row
  viewScans : List (List Row)
deriving DecidableEq, Repr

/-- One verification pass of the checker loop (src/main.rs lines 226-252):
read and canonicalize the base snapshot at quorum, then, for each node in
order, read and canonicalize that node's view snapshot and compare, emitting
one report per node. The pass only reads and prints: it returns the database
state unchanged alongside the reports. -/
def checkerPass (db : DbState) : DbState × List CheckReport :=
  let baseRows := read_all_rows_from_table db.tabScan
  (db, db.viewScans.enum.map fun p =>
    checkNode p.1 baseRows (read_all_rows_from_table p.2))

theorem rowLe_trans (a b c : Row) (hab : rowLe a b = true) (hbc : rowLe b c = true) :
    rowLe a c = true := by
  obtain ⟨a1, a2, a3⟩ := a
  obtain ⟨b1, b2, b3⟩ := b
  obtain ⟨c1, c2, c3⟩ := c
  simp only [rowLe, decide_eq_true_eq] at hab hbc ⊢
  omega

theorem rowLe_total (a b : Row) : rowLe a b || rowLe b a := by
  obtain ⟨a1, a2, a3⟩ := a
  obtain ⟨b1, b2, b3⟩ := b
  simp only [rowLe, Bool.or_eq_true, decide_eq_true_eq]
  omega

theorem rowLe_antisymm (a b : Row) (hab : rowLe a b = true) (hba : rowLe b a = true) :
    a = b := by
  obtain ⟨a1, a2, a3⟩ := a
  obtain ⟨b1, b2, b3⟩ := b
  simp only [rowLe, decide_eq_true_eq] at hab hba
  simp only [Prod.mk.injEq]
  omega

instance : IsAntisymm Row (fun a b => rowLe a b = true) := ⟨rowLe_antisymm⟩

theorem sorted_read_all (l : List Row) :
    List.Sorted (fun a b => rowLe a b = true) (read_all_rows_from_table l) :=
  List.sorted_mergeSort rowLe_trans rowLe_total l

theorem read_all_perm (l : List Row) : (read_all_rows_from_table l).Perm l :=
  List.mergeSort_perm l rowLe

theorem runWorker_stopped (obs : List (Bool × Bool)) :
    runWorker obs .stopped = (.stopped, []) := by
  induction obs with
  | nil => rfl
  | cons ob obs ih => simp [runWorker, workerStep, ih]

theorem retryFrom_attempts_le (ok : Nat → Bool) :
    ∀ tryNumber remaining,
      ((retryFrom ok tryNumber remaining).1).attempts ≤ tryNumber + remaining := by
  intro t r
  induction r generalizing t with
  | zero =>
    by_cases h : ok t <;> simp [retryFrom, h, WriteOutcome.attempts]
  | succ r ih =>
    by_cases h : ok t
    · simp [retryFrom, h, WriteOutcome.attempts]
    · simp only [retryFrom, h, Bool.false_eq_true, if_false]
      exact le_trans (ih (t + 1)) (by omega)

/-- C8: every row any worker ever writes binds the single generated value to
all three columns, so `p = c = r` holds for every write issued by the
workload. -/
theorem workerRow_columns_equal (concurrency id i : Nat) :
    (workerRow concurrency id i).1 = (workerRow concurrency id i).2.1 ∧
      (workerRow concurrency id i).2.1 = (workerRow concurrency id i).2.2 :=
  ⟨rfl, rfl⟩

/-- C2: a write makes at most `tries_num = 8` attempts; when every attempt
fails, the outcome is fatal after exactly 8 attempts — not fewer, not more —
with the fixed 64 ms backoff slept after each of the 7 non-final failures,
and the exhausted-retry failure surfaces as `fatal` rather than being
swallowed. -/
theorem retryingWrite_exhaustion (attemptOk : Nat → Bool)
    (hfail : ∀ t, attemptOk t = false) :
    retryingWrite attemptOk =
        (.fatal tries_num, List.replicate (tries_num - 1) backoffMs) ∧
      tries_num = 8 ∧ backoffMs = 64 ∧
      ∀ ok : Nat → Bool, ((retryingWrite ok).1).attempts ≤ tries_num := by
  refine ⟨?_, rfl, rfl, fun ok => retryFrom_attempts_le ok 1 (tries_num - 1)⟩
  rw [retryingWrite, retryFrom_all_fail attemptOk hfail]
  rfl

/-- Witness for C2 at a permanently failing write. -/
theorem retryingWrite_exhaustion_witness :
    retryingWrite (fun _ => false) = (.fatal 8, List.replicate 7 64) :=
  (retryingWrite_exhaustion (fun _ => false) (fun _ => rfl)).1

/-- C6: a worker that observes the stop flag set at the start of an iteration
— which is what every reader observes once `WritesStopper::stop` has stored
`true` — returns immediately: it reaches the terminal `stopped` state and
issues no write and no further output in that iteration or any later one,
whatever the rest of the schedule holds. -/
theorem stop_halts_worker (previous wf : Bool) (obs : List (Bool × Bool)) (i : Nat) :
    runWorker ((WritesStopper.stop previous, wf) :: obs) (.running i) = (.stopped, []) := by
  simp [runWorker, workerStep, WritesStopper.stop, runWorker_stopped]

/-- C3, evaluated at the failing input: when a fiber exhausts its write
retries, the `unwrap` panic aborts only that spawned task. In a two-fiber
pool where fiber 0 panics, the main task stays alive, fiber 1 is still
running, and fiber 1's next tick still issues a write — the process is not
terminated. -/
theorem exhausted_retry_panic_spares_process :
    (exhaustedRetryPanic ⟨[WorkerState.running 5, WorkerState.running 5], true⟩ 0).mainAlive
        = true ∧
      (exhaustedRetryPanic ⟨[WorkerState.running 5, WorkerState.running 5], true⟩ 0).fibers
        = [WorkerState.panicked, WorkerState.running 5] ∧
      workerStep false false (WorkerState.running 5) = (WorkerState.running 6, some 5) :=
  ⟨rfl, rfl, rfl⟩

/-- C4: the checker reports a pass for a node iff the base and view snapshots
are equal as ordered sequences, and on any inequality it reports a mismatch
naming that node together with the exact lengths of both snapshots. -/
theorem checkNode_pass_iff (nodeId : Nat) (B V : List Row) :
    (checkNode nodeId B V = .viewMatches nodeId ↔ B = V) ∧
      (B ≠ V → checkNode nodeId B V = .viewMismatch nodeId B.length V.length) := by
  by_cases h : V = B
  · subst h
    simp [checkNode]
  · have hBV : B ≠ V := fun hb => h hb.symm
    constructor
    · simp only [checkNode, if_neg h]
      constructor
      · intro hc
        exact absurd hc (by simp)
      · intro hb
        exact absurd hb.symm h
    · intro _
      simp [checkNode, if_neg h]

/-- Witness for C4 at unequal snapshots of lengths 1 and 0. -/
theorem checkNode_pass_iff_witness :
    checkNode 3 [((1 : Int), (1 : Int), (1 : Int))] [] = .viewMismatch 3 1 0 :=
  (checkNode_pass_iff 3 [((1 : Int), (1 : Int), (1 : Int))] []).2 (by decide)

/-- C7: a verification pass is pure: it returns the database state unchanged
(no snapshot, write or loop state is mutated), and a mismatch raises no
control-flow error — every node receives exactly one report, in order,
however many comparisons fail. -/
theorem checkerPass_pure (db : DbState) :
    (checkerPass db).1 = db ∧ (checkerPass db).2.length = db.viewScans.length := by
  refine ⟨rfl, ?_⟩
  simp [checkerPass]

/-- C5: the snapshot read is canonical: its output is always sorted ascending
by (p, c), and any two scans returning the same rows — in whatever physical
orders — canonicalize to the identical snapshot, so equal data always
compares equal; in particular a base scanned as [(1,1,1),(2,2,2)] matches a
view scanned back as [(2,2,2),(1,1,1)]. -/
theorem read_all_canonicalizes :
    (∀ l : List Row, (read_all_rows_from_table l).Pairwise
        (fun a b => a.1 < b.1 ∨ (a.1 = b.1 ∧ a.2.1 ≤ b.2.1))) ∧
      (∀ l1 l2 : List Row, l1.Perm l2 →
        read_all_rows_from_table l1 = read_all_rows_from_table l2) ∧
      checkNode 0 (read_all_rows_from_table [(1, 1, 1), (2, 2, 2)])
          (read_all_rows_from_table [(2, 2, 2), (1, 1, 1)]) = .viewMatches 0 := by
  have hdet : ∀ l1 l2 : List Row, l1.Perm l2 →
      read_all_rows_from_table l1 = read_all_rows_from_table l2 := by
    intro l1 l2 hperm
    exact List.eq_of_perm_of_sorted
      ((read_all_perm l1).trans (hperm.trans (read_all_perm l2).symm))
      (sorted_read_all l1) (sorted_read_all l2)
  refine ⟨?_, hdet, ?_⟩
  · intro l
    refine (sorted_read_all l).imp ?_
    intro a b hab
    simp only [rowLe, decide_eq_true_eq] at hab
    obtain ⟨a1, a2, a3⟩ := a
    obtain ⟨b1, b2, b3⟩ := b
    simp only at hab ⊢
    omega
  · have h := hdet [(2, 2, 2), (1, 1, 1)] [(1, 1, 1), (2, 2, 2)] (by decide)
    rw [h, checkNode, if_pos rfl]

/-- Witness for C5's determinism at two scans of the same two rows. -/
theorem read_all_canonicalizes_witness :
    read_all_rows_from_table [(2, 2, 2), (1, 1, 1)] =
      read_all_rows_from_table [(1, 1, 1), (2, 2, 2)] :=
  read_all_canonicalizes.2.1 _ _ (by decide)

/-- The position of the first occurrence of row `a` in a list (the length of
the list when `a` does not occur). -/
def firstPos (a : Row) : List Row → Nat
  | [] => 0
  | b :: l => if b = a then 0 else firstPos a l + 1

theorem firstPos_lt_length (a : Row) (l : List Row) (h : a ∈ l) :
    firstPos a l < l.length := by
  induction l with
  | nil => cases h
  | cons b l ih =>
    by_cases hb : b = a
    · simp [firstPos, hb]
    · have hmem : a ∈ l := by
        rcases List.mem_cons.mp h with h1 | h1
        · exact absurd h1.symm hb
        · exact h1
      simp only [firstPos, if_neg hb, List.length_cons]
      exact Nat.succ_lt_succ (ih hmem)

theorem firstPos_get (a : Row) (l : List Row) (h : a ∈ l)
    (hlen : firstPos a l < l.length) : l.get ⟨firstPos a l, hlen⟩ = a := by
  induction l with
  | nil => cases h
  | cons b l ih =>
    by_cases hb : b = a
    · simp [firstPos, hb]
    · have hmem : a ∈ l := by
        rcases List.mem_cons.mp h with h1 | h1
        · exact absurd h1.symm hb
        · exact h1
      have hlen2 : firstPos a l < l.length := firstPos_lt_length a l hmem
      simp only [firstPos, if_neg hb]
      simpa using ih hmem hlen2

/-- C10: the canonical sort orders rows by the full (p, c, r) triple under
lexicographic order, not only by (p, c): whenever two collected rows share p
and c but differ in r, the row with the smaller r comes strictly earlier in
the canonical snapshot. -/
theorem sort_orders_by_full_triple (l : List Row) (p c r1 r2 : Int)
    (hr : r1 < r2) (h1 : (p, c, r1) ∈ l) (h2 : (p, c, r2) ∈ l) :
    firstPos (p, c, r1) (read_all_rows_from_table l) <
      firstPos (p, c, r2) (read_all_rows_from_table l) := by
  have hm1 : ((p, c, r1) : Row) ∈ read_all_rows_from_table l :=
    (read_all_perm l).mem_iff.mpr h1
  have hm2 : ((p, c, r2) : Row) ∈ read_all_rows_from_table l :=
    (read_all_perm l).mem_iff.mpr h2
  have hi := firstPos_lt_length _ _ hm1
  have hj := firstPos_lt_length _ _ hm2
  have hgi := firstPos_get _ _ hm1 hi
  have hgj := firstPos_get _ _ hm2 hj
  have hne : firstPos (p, c, r1) (read_all_rows_from_table l) ≠
      firstPos (p, c, r2) (read_all_rows_from_table l) := by
    intro heq
    have hfin : (⟨firstPos (p, c, r1) (read_all_rows_from_table l), hi⟩ :
        Fin (read_all_rows_from_table l).length) = ⟨firstPos (p, c, r2) _, hj⟩ :=
      Fin.ext heq
    have h12 : ((p, c, r1) : Row) = (p, c, r2) := by
      rw [← hgi, ← hgj, hfin]
    have : r1 = r2 := congrArg (fun x : Row => x.2.2) h12
    omega
  rcases Nat.lt_or_ge (firstPos (p, c, r1) (read_all_rows_from_table l))
      (firstPos (p, c, r2) (read_all_rows_from_table l)) with hlt | hge
  · exact hlt
  · exfalso
    have hlt2 : firstPos (p, c, r2) (read_all_rows_from_table l) <
        firstPos (p, c, r1) (read_all_rows_from_table l) := by omega
    have hp := List.pairwise_iff_getElem.mp (sorted_read_all l) _ _ hj hi hlt2
    simp only [List.get_eq_getElem] at hgi hgj
    rw [hgi, hgj] at hp
    simp only [rowLe, decide_eq_true_eq] at hp
    omega

/-- Witness for C10: two rows with p = c = 0 and payloads 3 < 5. -/
theorem sort_orders_by_full_triple_witness :
    firstPos ((0 : Int), (0 : Int), (3 : Int))
        (read_all_rows_from_table [(0, 0, 5), (0, 0, 3)]) <
      firstPos ((0 : Int), (0 : Int), (5 : Int))
        (read_all_rows_from_table [(0, 0, 5), (0, 0, 3)]) :=
  sort_orders_by_full_triple [(0, 0, 5), (0, 0, 3)] 0 0 3 5 (by decide)
    (by decide) (by decide)

theorem toSigned32_of_lt {n : Nat} (h : n < 2 ^ 31) : toSigned32 n = (n : Int) := by
  have h32 : n < 2 ^ 32 := lt_trans h (by norm_num)
  unfold toSigned32
  rw [Nat.mod_eq_of_lt h32, if_pos h]

theorem workerValue_lt {N K id k : Nat} (hid : id < N) (hk : k < K)
    (hov : K * N ≤ 2 ^ 31) : workerValue N id k < 2 ^ 31 := by
  have h1 : id + k * N < (k + 1) * N := by
    rw [Nat.succ_mul]
    omega
  have h2 : (k + 1) * N ≤ K * N := mul_le_mul_right' (by omega) N
  unfold workerValue
  omega

theorem workerValueI32_eq_cast {N K id k : Nat} (hid : id < N) (hk : k < K)
    (hov : K * N ≤ 2 ^ 31) :
    workerValueI32 N id k = ((id + k * N : Nat) : Int) := by
  rw [workerValueI32, toSigned32_of_lt (workerValue_lt hid hk hov)]
  rfl

/-- C9 (amended): below the 32-bit overflow bound — for iterations whose
value id + i*N stays under 2^31 — each worker's value sequence is strictly
increasing, and the sequences of distinct workers are pairwise disjoint. The
claim as stated, with no bound on iterations, fails on the code: the value is
computed in i32 arithmetic and wraps, so the sequences are not strictly
increasing forever (see the counterexample). -/
theorem worker_sequences_increasing_disjoint (N : Nat) (hN : 1 ≤ N) :
    (∀ id i j : Nat, id < N → i < j → id + j * N < 2 ^ 31 →
        workerValueI32 N id i < workerValueI32 N id j) ∧
      ∀ id1 id2 i1 i2 : Nat, id1 < N → id2 < N → id1 ≠ id2 →
        id1 + i1 * N < 2 ^ 31 → id2 + i2 * N < 2 ^ 31 →
        workerValueI32 N id1 i1 ≠ workerValueI32 N id2 i2 := by
  constructor
  · intro id i j hid hij hov
    have hvj : workerValue N id j < 2 ^ 31 := hov
    have hle : i * N ≤ j * N := mul_le_mul_right' (le_of_lt hij) N
    have hvi : workerValue N id i < 2 ^ 31 := by
      unfold workerValue at hvj ⊢
      omega
    rw [workerValueI32, workerValueI32, toSigned32_of_lt hvi, toSigned32_of_lt hvj]
    have hlt : workerValue N id i < workerValue N id j := by
      unfold workerValue
      have h1 : i * N < j * N := mul_lt_mul_of_pos_right hij (by omega)
      omega
    exact_mod_cast hlt
  · intro id1 id2 i1 i2 h1 h2 hne hov1 hov2
    have hov1w : workerValue N id1 i1 < 2 ^ 31 := hov1
    have hov2w : workerValue N id2 i2 < 2 ^ 31 := hov2
    rw [workerValueI32, workerValueI32, toSigned32_of_lt hov1w, toSigned32_of_lt hov2w]
    intro heq
    have heqn : workerValue N id1 i1 = workerValue N id2 i2 := by exact_mod_cast heq
    unfold workerValue at heqn
    have e1 : (id1 + i1 * N) % N = id1 := by
      rw [Nat.add_mul_mod_self_right, Nat.mod_eq_of_lt h1]
    have e2 : (id2 + i2 * N) % N = id2 := by
      rw [Nat.add_mul_mod_self_right, Nat.mod_eq_of_lt h2]
    apply hne
    rw [← e1, ← e2, heqn]

/-- Witness for C9 at the code's worker count 512. -/
theorem worker_sequences_increasing_disjoint_witness :
    workerValueI32 512 0 0 < workerValueI32 512 0 1 ∧
      workerValueI32 512 3 7 ≠ workerValueI32 512 5 7 :=
  ⟨(worker_sequences_increasing_disjoint 512 (by norm_num)).1 0 0 1 (by norm_num)
      (by norm_num) (by norm_num),
    (worker_sequences_increasing_disjoint 512 (by norm_num)).2 3 5 7 7 (by norm_num)
      (by norm_num) (by norm_num) (by norm_num) (by norm_num)⟩

/-- Counterexample to C9 as stated: with the code's 512 workers, worker 0's
i32 value wraps back to 0 at iteration 2^23 (0 + 2^23 * 512 = 2^32 ≡ 0), the
same value it produced at iteration 0 — so its sequence is not an infinite
strictly increasing sequence over all iteration counts. -/
theorem worker_sequence_wraps :
    workerValueI32 512 0 (2 ^ 23) = workerValueI32 512 0 0 ∧ (0 : Nat) < 2 ^ 23 := by
  constructor
  · decide
  · norm_num

/-- C1 (amended): for every worker count N ≥ 1 and every bound K small enough
that the run stays below the i32 overflow bound (K * N ≤ 2^31), the values
produced by a bounded run of K iterations per worker are pairwise distinct
and form exactly the set {id + k*N : id ∈ [0,N), k ∈ [0,K)}, which is exactly
{0, …, K*N - 1} — no duplicates and no gaps. As stated, over every bound K,
the claim fails because the i32 value wraps (see the counterexample); with 4
workers and 3 iterations the produced values are exactly {0, …, 11}. -/
theorem bounded_run_values_exact (N K : Nat) (hN : 1 ≤ N) (hov : K * N ≤ 2 ^ 31) :
    (producedList N K).Nodup ∧
      (∀ v : Int, v ∈ producedList N K ↔
        ∃ id < N, ∃ k < K, v = ((id + k * N : Nat) : Int)) ∧
      ∀ v : Int, v ∈ producedList N K ↔ 0 ≤ v ∧ v < ((K * N : Nat) : Int) := by
  have hmem : ∀ v : Int, v ∈ producedList N K ↔
      ∃ id < N, ∃ k < K, v = ((id + k * N : Nat) : Int) := by
    intro v
    simp only [producedList, List.mem_flatMap, List.mem_map, List.mem_range]
    constructor
    · rintro ⟨id, hid, k, hk, hv⟩
      exact ⟨id, hid, k, hk, by rw [← hv, workerValueI32_eq_cast hid hk hov]⟩
    · rintro ⟨id, hid, k, hk, hv⟩
      exact ⟨id, hid, k, hk, by rw [workerValueI32_eq_cast hid hk hov, hv]⟩
  have hnodup : (producedList N K).Nodup := by
    rw [producedList, List.nodup_flatMap]
    constructor
    · intro id hid
      rw [List.mem_range] at hid
      rw [List.nodup_map_iff_inj_on (List.nodup_range _)]
      intro k1 hk1 k2 hk2 heq
      rw [List.mem_range] at hk1 hk2
      rw [workerValueI32_eq_cast hid hk1 hov, workerValueI32_eq_cast hid hk2 hov] at heq
      have heqn : id + k1 * N = id + k2 * N := by exact_mod_cast heq
      have hmul : k1 * N = k2 * N := by omega
      exact Nat.eq_of_mul_eq_mul_right (by omega) hmul
    · rw [List.pairwise_iff_getElem]
      intro a b ha hb hab
      rw [List.length_range] at ha hb
      simp only [List.getElem_range, Function.onFun]
      intro x hx1 hx2
      rw [List.mem_map] at hx1 hx2
      obtain ⟨k1, hk1, he1⟩ := hx1
      obtain ⟨k2, hk2, he2⟩ := hx2
      rw [List.mem_range] at hk1 hk2
      rw [workerValueI32_eq_cast ha hk1 hov] at he1
      rw [workerValueI32_eq_cast hb hk2 hov] at he2
      have heqn : a + k1 * N = b + k2 * N := by
        have := he1.trans he2.symm
        exact_mod_cast this
      have e1 : (a + k1 * N) % N = a := by
        rw [Nat.add_mul_mod_self_right, Nat.mod_eq_of_lt ha]
      have e2 : (b + k2 * N) % N = b := by
        rw [Nat.add_mul_mod_self_right, Nat.mod_eq_of_lt hb]
      have : a = b := by rw [← e1, ← e2, heqn]
      omega
  refine ⟨hnodup, hmem, ?_⟩
  intro v
  rw [hmem v]
  constructor
  · rintro ⟨id, hid, k, hk, rfl⟩
    refine ⟨Int.natCast_nonneg _, ?_⟩
    have hlt : id + k * N < K * N := by
      have h1 : id + k * N < (k + 1) * N := by
        rw [Nat.succ_mul]
        omega
      have h2 : (k + 1) * N ≤ K * N := mul_le_mul_right' (by omega) N
      omega
    exact_mod_cast hlt
  · rintro ⟨h0, hlt⟩
    have hvnat : v = ((v.toNat : Nat) : Int) := (Int.toNat_of_nonneg h0).symm
    have hlt2 : v.toNat < K * N := by
      rw [hvnat] at hlt
      exact_mod_cast hlt
    refine ⟨v.toNat % N, Nat.mod_lt _ (by omega), v.toNat / N, ?_, ?_⟩
    · rw [Nat.div_lt_iff_lt_mul (by omega)]
      omega
    · rw [Nat.mod_add_div']
      exact hvnat

/-- Witness for C1 at 4 workers and 3 iterations each: the 12 produced values
are pairwise distinct, 11 is produced and 12 is not. -/
theorem bounded_run_values_exact_witness :
    (producedList 4 3).Nodup ∧ (11 : Int) ∈ producedList 4 3 ∧
      ¬ (12 : Int) ∈ producedList 4 3 := by
  have h := bounded_run_values_exact 4 3 (by norm_num) (by norm_num)
  refine ⟨h.1, ?_, ?_⟩
  · rw [h.2.2 11]
    norm_num
  · rw [h.2.2 12]
    norm_num

/-- Counterexample to C1 as stated: at the code's worker count N = 512 and
bound K = 2^23 + 1, the produced values contain a duplicate — worker 0's i32
value wraps back to 0 at iteration 2^23 — so the produced multiset is not the
stated duplicate-free set for every bound K. -/
theorem bounded_run_has_duplicates : ¬ (producedList 512 (2 ^ 23 + 1)).Nodup := by
  intro h
  rw [producedList, List.nodup_flatMap] at h
  have h0 := h.1 0 (by simp)
  rw [List.nodup_map_iff_inj_on (List.nodup_range _)] at h0
  have heq : workerValueI32 512 0 0 = workerValueI32 512 0 (2 ^ 23) := by decide
  have h00 : (0 : Nat) ∈ List.range (2 ^ 23 + 1) := List.mem_range.mpr (by norm_num)
  have h23 : (2 ^ 23 : Nat) ∈ List.range (2 ^ 23 + 1) := List.mem_range.mpr (by norm_num)
  have hcontra := h0 0 h00 (2 ^ 23) h23 heq
  norm_num at hcontra
